import Mathlib

/-!
Shallow embedding of the logrotate pipeline (src/rotate.rs, src/utils.rs,
src/main.rs, src/pm.rs).

Bytes are modelled as `Nat` values, file names as byte lists, and the
destination directory as an association list from file names to file sizes.
All recursion in the source that is not structurally decreasing is driven by
an explicit fuel argument so that every definition is executable and
kernel-reducible; `none` results signal that the modelled code does not
finish within the given fuel.
-/

/-- A byte value (`u8`). -/
abbrev Byte := Nat

/-- The newline byte `b'\n'` (10). -/
def nl : Byte := 10

/-- Decimal digit bytes of `n`, fuel-driven; models Rust `format!("{}", n)`
rendering of an unsigned integer. -/
def natDigitsAux : Nat → Nat → List Byte
  | 0, _ => []
  | fuel + 1, n => if n < 10 then [48 + n] else natDigitsAux fuel (n / 10) ++ [48 + n % 10]

/-- Decimal rendering of `n` as bytes (`format!("{}", n)`). -/
def natDigits (n : Nat) : List Byte := natDigitsAux (n + 1) n

/-- Left-to-right decimal parse, inverse of `natDigits`. -/
def parseDigits (l : List Byte) : Nat := l.foldl (fun a b => a * 10 + (b - 48)) 0

theorem parseDigits_append_one (xs : List Byte) (b : Byte) :
    parseDigits (xs ++ [b]) = parseDigits xs * 10 + (b - 48) := by
  simp [parseDigits, List.foldl_append]

theorem parseDigits_natDigitsAux :
    ∀ fuel n, n < fuel → parseDigits (natDigitsAux fuel n) = n := by
  intro fuel
  induction fuel with
  | zero => intro n h; omega
  | succ f ih =>
    intro n h
    rw [natDigitsAux]
    by_cases h10 : n < 10
    · simp [h10, parseDigits]
    · have hdiv : n / 10 < n := Nat.div_lt_self (by omega) (by omega)
      have hf : n / 10 < f := by omega
      simp only [h10, if_false]
      rw [parseDigits_append_one, ih _ hf]
      omega

theorem parseDigits_natDigits (n : Nat) : parseDigits (natDigits n) = n :=
  parseDigits_natDigitsAux (n + 1) n (Nat.lt_succ_self n)

theorem natDigits_injective : Function.Injective natDigits := by
  intro m n h
  have hm := parseDigits_natDigits m
  have hn := parseDigits_natDigits n
  rw [← hm, ← hn, h]

/-- `path.clone() + "." + day`, the bare archival name `<path>.<day>`. -/
def nameDot (path day : List Byte) : List Byte := path ++ (46 :: day)

/-- `format!("{:}.{:}-{:}", path, day, i)`, the numbered archival name. -/
def nameDash (path day : List Byte) (i : Nat) : List Byte :=
  path ++ (46 :: day) ++ (45 :: natDigits i)

/-- `format!("{}.gz", n)`, the compressed form of an archival name. -/
def gzName (n : List Byte) : List Byte := n ++ [46, 103, 122]

/-- Bytes of a string literal, for stating concrete instances legibly. -/
def strBytes (s : String) : List Byte := s.toList.map Char.toNat

/-! ## Line framing (`utils::Lines` and the receive loop of `rotate::start`) -/

/-- One `Lines::next` slice boundary: one past the first newline of the
remaining data, or its length when it has no newline. -/
def lineEnd (data : List Byte) : Nat :=
  match data.findIdx? (fun b => b == nl) with
  | some p => p + 1
  | none => data.length

/-- The `utils::Lines` iterator materialised as the list of its `next()`
slices, fuel-driven (`data.length` fuel always suffices). -/
def linesOfAux : Nat → List Byte → List (List Byte)
  | 0, _ => []
  | fuel + 1, data =>
    if data.isEmpty then []
    else data.take (lineEnd data) :: linesOfAux fuel (data.drop (lineEnd data))

/-- All slices yielded by `utils::Lines` over `data`. -/
def linesOf (data : List Byte) : List (List Byte) := linesOfAux data.length data

theorem lineEnd_pos (data : List Byte) (h : data ≠ []) : 0 < lineEnd data := by
  cases hf : data.findIdx? (fun b => b == nl) with
  | some p => simp [lineEnd, hf]
  | none =>
    simp only [lineEnd, hf]
    exact List.length_pos.mpr h

theorem linesOfAux_flatten :
    ∀ fuel data, data.length ≤ fuel → (linesOfAux fuel data).flatten = data := by
  intro fuel
  induction fuel with
  | zero =>
    intro data h
    have : data = [] := List.length_eq_zero.mp (by omega)
    simp [this, linesOfAux]
  | succ f ih =>
    intro data h
    rw [linesOfAux]
    by_cases hd : data = []
    · simp [hd]
    · have hpos := lineEnd_pos data hd
      have hne : data.isEmpty = false := by simpa [List.isEmpty_iff] using hd
      simp only [hne, Bool.false_eq_true, if_false, List.flatten_cons]
      rw [ih _ (by simp only [List.length_drop]; omega)]
      exact List.take_append_drop _ _

theorem linesOf_flatten (data : List Byte) : (linesOf data).flatten = data :=
  linesOfAux_flatten data.length data (Nat.le_refl _)

theorem linesOf_ne_nil (data : List Byte) (h : data ≠ []) : linesOf data ≠ [] := by
  unfold linesOf
  cases hl : data.length with
  | zero => exact absurd (List.length_eq_zero.mp hl) h
  | succ k =>
    rw [linesOfAux]
    have hne : data.isEmpty = false := by simpa [List.isEmpty_iff] using h
    simp [hne]

/-- `data.iter().rposition(|&x| x == b'\n')`: index of the last newline. -/
def rposition : List Byte → Option Nat
  | [] => none
  | b :: rest =>
    match rposition rest with
    | some i => some (i + 1)
    | none => if b == nl then some 0 else none

/-- The tail-splitting prologue of the receive loop: when the chunk does not
end in a newline and contains one, everything after the last newline becomes
the new pending tail (`data[index + 1..].to_vec()`) and the chunk is
truncated to `index + 1`; otherwise the chunk passes through unchanged. -/
def splitChunk (data : List Byte) (lastByte : Byte) :
    Option (List Byte) × List Byte :=
  if lastByte ≠ nl then
    match rposition data with
    | some index => (some (data.drop (index + 1)), data.take (index + 1))
    | none => (none, data)
  else (none, data)

/-- One iteration of the receive loop of `rotate::start` on chunk `data` with
pending tail `tail`. Returns `none` when the chunk is empty — the source
expression `data[data.len() - 1]` panics there — and otherwise the new
pending tail together with the byte sequences passed to `write_all` during
the iteration, in order. -/
def orchStep (tail : Option (List Byte)) (data : List Byte) :
    Option (Option (List Byte) × List (List Byte)) :=
  match data.getLast? with
  | none => none
  | some lastByte =>
    let split := splitChunk data lastByte
    match tail with
    | none => some (split.1, linesOf split.2)
    | some t =>
      match linesOf split.2 with
      | [] =>
        match split.1 with
        | some t2 => some (some (t ++ t2), [])
        | none => some (none, [])
      | l0 :: rest => some (split.1, (t ++ l0) :: rest)

/-- The receive loop of `rotate::start` over the chunks delivered by the
channel: accumulated `write_all` arguments and the final pending tail. -/
def runLoop : Option (List Byte) → List (List Byte) →
    Option (List (List Byte) × Option (List Byte))
  | tail, [] => some ([], tail)
  | tail, c :: cs =>
    match orchStep tail c with
    | none => none
    | some (tl, ws) =>
      match runLoop tl cs with
      | none => none
      | some (ws', tfin) => some (ws ++ ws', tfin)

/-- All byte sequences passed to `write_all` by `rotate::start`, including
the residual tail flushed after the channel closes. -/
def runAll (chunks : List (List Byte)) : Option (List (List Byte)) :=
  match runLoop none chunks with
  | none => none
  | some (ws, some t) => some (ws ++ [t])
  | some (ws, none) => some ws

theorem splitChunk_recombine (data : List Byte) (lastByte : Byte) :
    (splitChunk data lastByte).2 ++ ((splitChunk data lastByte).1).getD [] = data := by
  by_cases hlb : lastByte ≠ nl
  · cases hr : rposition data with
    | some index => simp [splitChunk, hlb, hr, List.take_append_drop]
    | none => simp [splitChunk, hlb, hr]
  · simp [splitChunk, hlb]

theorem splitChunk_snd_ne_nil (data : List Byte) (lastByte : Byte) (hd : data ≠ []) :
    (splitChunk data lastByte).2 ≠ [] := by
  by_cases hlb : lastByte ≠ nl
  · cases hr : rposition data with
    | some index =>
      simpa [splitChunk, hlb, hr, List.take_eq_nil_iff] using hd
    | none => simpa [splitChunk, hlb, hr] using hd
  · simpa [splitChunk, hlb] using hd

theorem orchStep_tail_none (data : List Byte) (lastByte : Byte)
    (hgl : data.getLast? = some lastByte) :
    orchStep none data =
      some ((splitChunk data lastByte).1, linesOf (splitChunk data lastByte).2) := by
  unfold orchStep
  rw [hgl]

theorem orchStep_tail_some (data : List Byte) (lastByte : Byte)
    (hgl : data.getLast? = some lastByte) (t l0 : List Byte) (rest : List (List Byte))
    (hlo : linesOf (splitChunk data lastByte).2 = l0 :: rest) :
    orchStep (some t) data =
      some ((splitChunk data lastByte).1, (t ++ l0) :: rest) := by
  unfold orchStep
  rw [hgl]
  simp only [hlo]

theorem orchStep_total (tail : Option (List Byte)) (data : List Byte) (hd : data ≠ []) :
    (orchStep tail data).isSome := by
  obtain ⟨lastByte, hgl⟩ := Option.isSome_iff_exists.mp (List.getLast?_isSome.mpr hd)
  cases tail with
  | none => rw [orchStep_tail_none data lastByte hgl]; rfl
  | some t =>
    cases hlo : linesOf (splitChunk data lastByte).2 with
    | nil =>
      exact absurd hlo (linesOf_ne_nil _ (splitChunk_snd_ne_nil data lastByte hd))
    | cons l0 rest =>
      rw [orchStep_tail_some data lastByte hgl t l0 rest hlo]; rfl

theorem orchStep_conserve (tail : Option (List Byte)) (data : List Byte) (hd : data ≠ [])
    (tl : Option (List Byte)) (ws : List (List Byte))
    (h : orchStep tail data = some (tl, ws)) :
    ws.flatten ++ tl.getD [] = tail.getD [] ++ data := by
  obtain ⟨lastByte, hgl⟩ := Option.isSome_iff_exists.mp (List.getLast?_isSome.mpr hd)
  have hrec := splitChunk_recombine data lastByte
  cases tail with
  | none =>
    rw [orchStep_tail_none data lastByte hgl] at h
    simp only [Option.some.injEq, Prod.mk.injEq] at h
    obtain ⟨rfl, rfl⟩ := h
    simpa [linesOf_flatten] using hrec
  | some t =>
    cases hlo : linesOf (splitChunk data lastByte).2 with
    | nil =>
      exact absurd hlo (linesOf_ne_nil _ (splitChunk_snd_ne_nil data lastByte hd))
    | cons l0 rest =>
      rw [orchStep_tail_some data lastByte hgl t l0 rest hlo] at h
      simp only [Option.some.injEq, Prod.mk.injEq] at h
      obtain ⟨rfl, rfl⟩ := h
      have hflat : l0 ++ rest.flatten = (splitChunk data lastByte).2 := by
        rw [← linesOf_flatten (splitChunk data lastByte).2, hlo, List.flatten_cons]
      simp only [List.flatten_cons, Option.getD_some, List.append_assoc]
      rw [← List.append_assoc l0, hflat, hrec]

theorem runLoop_conserve :
    ∀ chunks tail, (∀ c ∈ chunks, c ≠ []) →
    ∃ ws tfin, runLoop tail chunks = some (ws, tfin) ∧
      ws.flatten ++ tfin.getD [] = tail.getD [] ++ chunks.flatten := by
  intro chunks
  induction chunks with
  | nil => intro tail _; exact ⟨[], tail, rfl, by simp⟩
  | cons c cs ih =>
    intro tail h
    have hc : c ≠ [] := h c (by simp)
    obtain ⟨⟨tl, ws⟩, hstep⟩ :=
      Option.isSome_iff_exists.mp (orchStep_total tail c hc)
    obtain ⟨ws', tfin, hrun, hcons⟩ := ih tl (fun x hx => h x (by simp [hx]))
    refine ⟨ws ++ ws', tfin, ?_, ?_⟩
    · simp [runLoop, hstep, hrun]
    · have h1 := orchStep_conserve tail c hc tl ws hstep
      rw [List.flatten_append, List.flatten_cons, List.append_assoc, hcons,
        ← List.append_assoc, h1, List.append_assoc]

/-- C2: for every partition of a byte stream into non-empty chunks delivered
in order to the receive loop of `rotate::start`, the concatenation of all
byte sequences passed to `write_all` — including the residual tail flushed
after the channel closes — equals the original stream: no byte lost, none
duplicated, order preserved. -/
theorem c2_reassembly_preserves_stream (chunks : List (List Byte))
    (h : ∀ c ∈ chunks, c ≠ []) :
    ∃ ws, runAll chunks = some ws ∧ ws.flatten = chunks.flatten := by
  obtain ⟨ws, tfin, hrun, hcons⟩ := runLoop_conserve chunks none h
  cases tfin with
  | none =>
    refine ⟨ws, ?_, ?_⟩
    · rw [runAll, hrun]
    · simpa using hcons
  | some t =>
    refine ⟨ws ++ [t], ?_, ?_⟩
    · rw [runAll, hrun]
    · simp only [List.flatten_append, List.flatten_cons, List.flatten_nil,
        List.append_nil]
      simpa using hcons

theorem c2_reassembly_preserves_stream_witness :
    ∃ ws, runAll [[97, 98], [99, 10, 100], [101, 10]] = some ws ∧
      ws.flatten = [[97, 98], [99, 10, 100], [101, 10]].flatten :=
  c2_reassembly_preserves_stream [[97, 98], [99, 10, 100], [101, 10]] (by decide)

/-- C5 (evaluating the code at the failing input): when the newline-free
chunk `[98]` (`"b"`) arrives while the tail `[97]` (`"a"`) is pending, the
receive loop immediately passes `[97, 98]` (`"ab"`) to `write_all` and
clears the pending tail — it does not buffer the concatenation as a
still-pending tail, contrary to the claim. The branch of the source that
would concatenate the two fragments is unreachable, because a newline-free
chunk is never truncated to the empty slice. -/
theorem c5_newline_free_chunk_is_written_not_buffered :
    orchStep (some [97]) [98] = some (none, [[97, 98]]) := by decide

/-- The producer guard of `stdin_read` (main.rs) and `handle_out` (pm.rs):
a read buffer is sent into the channel only when `buf.len() > 0`. -/
def send_guard (buf : List Byte) : Option (List Byte) :=
  if buf.length > 0 then some buf else none

/-- C10: every chunk a producer sends through the channel guard is
non-empty; for such a chunk the orchestrator's first index expression
`data[data.len() - 1]` is in bounds (`c.length - 1 < c.length`) and the
receive-loop iteration does not hit its empty-chunk panic, while for an
empty chunk the in-bounds condition fails. -/
theorem c10_sent_chunks_nonempty (buf c : List Byte) (h : send_guard buf = some c) :
    c ≠ [] ∧ c.length - 1 < c.length ∧
      (∀ tail, (orchStep tail c).isSome) ∧
      ¬(([] : List Byte).length - 1 < ([] : List Byte).length) := by
  have hc : c = buf ∧ 0 < buf.length := by
    by_cases hb : buf.length > 0
    · simp only [send_guard, hb, if_true, Option.some.injEq] at h
      exact ⟨h.symm, hb⟩
    · simp [send_guard, hb] at h
  obtain ⟨heq, hlen⟩ := hc
  rw [← heq] at hlen
  have hne : c ≠ [] := by
    intro hnil
    rw [hnil] at hlen
    simp at hlen
  exact ⟨hne, by omega, fun tail => orchStep_total tail c hne, by simp⟩

theorem c10_sent_chunks_nonempty_witness :
    [97] ≠ [] ∧ [97].length - 1 < [97].length ∧
      (∀ tail, (orchStep tail [97]).isSome) ∧
      ¬(([] : List Byte).length - 1 < ([] : List Byte).length) :=
  c10_sent_chunks_nonempty [97] [97] (by decide)

/-! ## The rotation engine (`rotate.rs`)

The destination directory is an association list from file names (byte
lists) to file sizes. Calendar time is modelled at day resolution: a local
date is an integer day number and `%Y%m%d` rendering is its decimal form.
Recoverable I/O failures of the source are injected through `Errs` flags. -/

/-- The destination directory: file name ↦ current size in bytes. -/
abbrev Disk := List (List Byte × Nat)

/-- `is_file` (rotate.rs): `fs::metadata(path).is_ok_and(|m| m.is_file())`. -/
def is_file (d : Disk) (n : List Byte) : Bool := (d.lookup n).isSome

/-- Error injection for the recoverable I/O operations of the engine. -/
structure Errs where
  open_fails : Bool
  rename_fails : Bool
  gzip_fails : Bool
  delete_fails : Bool
deriving DecidableEq, Repr

/-- The error-free run. -/
def noErr : Errs := ⟨false, false, false, false⟩

/-- The mutable fields of `SizeRotate` used by `get_file` (the channel
receiver is handled separately by the orchestrator model). -/
structure SizeSt where
  path : List Byte
  size_limit : Nat
  cur_size : Nat
  file_open : Bool
  compress : Bool
  keep_days : Int
deriving DecidableEq, Repr

/-- `SizeRotate::new`: `file_size.or_else(|| Some(1024 * 1024 * 20)).unwrap()`
— the size limit used when constructing the size-policy engine. -/
def sizeRotate_new_limit (file_size : Option Nat) : Nat :=
  match file_size.or (some (1024 * 1024 * 20)) with
  | some v => v
  | none => 0

/-- `open_file` (rotate.rs): append to an existing file, returning its
metadata (here its length), or create it fresh; `e.open_fails` injects every
failure path of the source (metadata error, open error, create error). -/
def open_file (e : Errs) (d : Disk) (p : List Byte) :
    Except Unit (Disk × Option Nat) :=
  if e.open_fails then Except.error ()
  else
    match d.lookup p with
    | some sz => Except.ok (d, some sz)
    | none => Except.ok ((p, 0) :: d, none)

/-- The existence test of `rotate_filename`:
`(compress && !is_file(gz)) || (!compress && !is_file(filename))` — the
candidate is usable when the checked form does not exist. -/
def checkFree (d : Disk) (compress : Bool) (n : List Byte) : Bool :=
  (compress && !(is_file d (gzName n))) || (!compress && !(is_file d n))

/-- The `loop` of `Rotate::rotate_filename`: try `<path>.<day>-<i>` for
`i = 1, 2, ...` until the checked form is unused; fuel bounds the search. -/
def rotateFilenameAux (d : Disk) (p day : List Byte) (compress : Bool) :
    Nat → Nat → Option (List Byte)
  | 0, _ => none
  | fuel + 1, i =>
    if checkFree d compress (nameDash p day i) then some (nameDash p day i)
    else rotateFilenameAux d p day compress fuel (i + 1)

/-- `Rotate::rotate_filename`: without `mul`, the bare `<path>.<day>` is
used when its checked form is unused; otherwise (and always under `mul`)
the numbered loop runs from 1. -/
def rotate_filename (d : Disk) (p day : List Byte) (compress mul : Bool)
    (fuel : Nat) : Option (List Byte) :=
  if !mul && checkFree d compress (nameDot p day) then some (nameDot p day)
  else rotateFilenameAux d p day compress fuel 1

/-- `fs::rename(old, new)`: fails when the source is missing; replaces any
existing file at the destination. -/
def fsRename (d : Disk) (oldName newName : List Byte) : Option Disk :=
  match d.lookup oldName with
  | none => none
  | some sz =>
    some ((newName, sz) ::
      d.filter (fun f => !(f.1 == oldName) && !(f.1 == newName)))

/-- `gzip_encode` (rotate.rs): read `n`, create `<n>.gz`, delete `n`;
`e.gzip_fails` injects the failure paths the source propagates with `?`. -/
def gzip_encode (e : Errs) (d : Disk) (n : List Byte) : Except Unit Disk :=
  if e.gzip_fails then Except.error ()
  else
    match d.lookup n with
    | none => Except.error ()
    | some sz =>
      Except.ok ((gzName n, sz) ::
        d.filter (fun f => !(f.1 == n) && !(f.1 == gzName n)))

/-- `remove_log_files` + `file_glob` (rotate.rs): delete every directory
entry whose file name starts with `<path>.<day>`; returns the directory
afterwards and the names removed. With `e.delete_fails` every
`fs::remove_file` fails and is only logged. -/
def remove_log_files (e : Errs) (d : Disk) (p day : List Byte) :
    Disk × List (List Byte) :=
  if e.delete_fails then (d, [])
  else
    (d.filter (fun f => !((nameDot p day).isPrefixOf f.1)),
      (d.map Prod.fst).filter (fun n => (nameDot p day).isPrefixOf n))

/-- `date_add(days)` at day resolution: the local date shifted by `days`. -/
def date_add (today days : Int) : Int := today + days

/-- `%Y%m%d` rendering of a (nonnegative) day number. -/
def fmtDay (d : Int) : List Byte := natDigits d.toNat

/-- The result of a `get_file` call: whether a file handle was returned
(`accepted`, versus an `io::Result` error), the engine state and directory
afterwards, the number of rotations performed, and the names deleted by the
retention sweeps that ran. -/
structure Outcome where
  accepted : Bool
  st : SizeSt
  disk : Disk
  rotations : Nat
  removed : List (List Byte)
deriving DecidableEq, Repr

/-- The open phase of `SizeRotate::get_file`: when no file is open, open or
create the live path, seeding `cur_size` from the existing length (or 0 for
a fresh file); the error is returned to the caller. -/
def openPhase (e : Errs) (st : SizeSt) (d : Disk) : Except Unit (SizeSt × Disk) :=
  if st.file_open then Except.ok (st, d)
  else
    match open_file e d st.path with
    | Except.error _ => Except.error ()
    | Except.ok (d', some sz) =>
      Except.ok ({ st with file_open := true, cur_size := sz }, d')
    | Except.ok (d', none) =>
      Except.ok ({ st with file_open := true, cur_size := 0 }, d')

/-- The result of one ROTATE attempt inside `get_file`. -/
inductive RotRes where
  | noName
  | gzipErr (st : SizeSt) (d : Disk)
  | done (st : SizeSt) (d : Disk) (removed : List (List Byte)) (renamed : Bool)
deriving DecidableEq, Repr

/-- One ROTATE of `SizeRotate::get_file`: drop the handle (flush failures
are only logged), pick the archival name, rename the live path to it
(failure is logged and non-fatal), on rename success compress when
configured (a compression failure propagates out of `get_file` with `?`),
then run the retention sweep. The archival-name search is given
`d1.length + 1` fuel, which is proved sufficient below. -/
def rotate_step (e : Errs) (today : Int) (st1 : SizeSt) (d1 : Disk) : RotRes :=
  match rotate_filename d1 st1.path (fmtDay today) st1.compress true
    (d1.length + 1) with
  | none => RotRes.noName
  | some newName =>
    match (if e.rename_fails then none else fsRename d1 st1.path newName :
      Option Disk) with
    | none =>
      let swept := remove_log_files e d1 st1.path
        (fmtDay (date_add today (-st1.keep_days)))
      RotRes.done { st1 with file_open := false } swept.1 swept.2 false
    | some d2 =>
      match (if st1.compress then gzip_encode e d2 newName
        else Except.ok d2 : Except Unit Disk) with
      | Except.error _ => RotRes.gzipErr { st1 with file_open := false } d2
      | Except.ok d2' =>
        let swept := remove_log_files e d2' st1.path
          (fmtDay (date_add today (-st1.keep_days)))
        RotRes.done { st1 with file_open := false } swept.1 swept.2 true

/-- `SizeRotate::get_file(len)` over the abstract directory. The fuel bounds
the recursion depth of the source's self-call; `none` means the recursion
does not finish within the fuel. -/
def get_file (e : Errs) (today : Int) :
    Nat → SizeSt → Disk → Nat → Option Outcome
  | 0, _, _, _ => none
  | fuel + 1, st, d, len =>
    match openPhase e st d with
    | Except.error _ => some ⟨false, st, d, 0, []⟩
    | Except.ok (st1, d1) =>
      if st1.cur_size + len ≤ st1.size_limit then
        some ⟨true, { st1 with cur_size := st1.cur_size + len }, d1, 0, []⟩
      else
        match rotate_step e today st1 d1 with
        | RotRes.noName => none
        | RotRes.gzipErr st2 d2 => some ⟨false, st2, d2, 1, []⟩
        | RotRes.done st2 d3 removed _ =>
          match get_file e today fuel st2 d3 len with
          | none => none
          | some o =>
            some { o with rotations := o.rotations + 1, removed := removed ++ o.removed }

/-- Record a write of `n` bytes appended to the file at `p`. -/
def bumpSize (d : Disk) (p : List Byte) (n : Nat) : Disk :=
  d.map (fun f => if f.1 == p then (f.1, f.2 + n) else f)

/-- `write_all` (rotate.rs): fetch the live file via `get_file` and append
`data` to it; every failure is only logged. `written` records the byte
sequences that actually reached a file. -/
def write_all (e : Errs) (today : Int) (fuel : Nat) (st : SizeSt) (d : Disk)
    (data : List Byte) (written : List (List Byte)) :
    SizeSt × Disk × List (List Byte) :=
  match get_file e today fuel st d data.length with
  | none => (st, d, written)
  | some o =>
    if o.accepted then (o.st, bumpSize o.disk o.st.path data.length, written ++ [data])
    else (o.st, o.disk, written)

/-! ## Directory and naming lemmas -/

theorem lookup_isSome_iff (d : Disk) (n : List Byte) :
    (d.lookup n).isSome ↔ n ∈ d.map Prod.fst := by
  induction d with
  | nil => simp [List.lookup]
  | cons f rest ih =>
    rcases f with ⟨k, v⟩
    by_cases h : n = k
    · simp [List.lookup, h]
    · have hbeq : (n == k) = false := by simpa using h
      simp [List.lookup, hbeq, ih, h]

theorem lookup_filter_none (d : Disk) (p : List Byte) (q : List Byte × Nat → Bool)
    (h : d.lookup p = none) : (d.filter q).lookup p = none := by
  induction d with
  | nil => simp [List.lookup]
  | cons f rest ih =>
    rcases f with ⟨k, v⟩
    by_cases hk : p = k
    · subst hk
      simp [List.lookup] at h
    · have hbeq : (p == k) = false := by simpa using hk
      rw [List.lookup] at h
      simp only [hbeq] at h
      cases hq : q (k, v) with
      | true => simp [List.filter_cons, hq, List.lookup, hbeq, ih h]
      | false => simp [List.filter_cons, hq, ih h]

theorem lookup_filter_key_removed (d : Disk) (p : List Byte)
    (q : List Byte × Nat → Bool) :
    (d.filter (fun f => !(f.1 == p) && q f)).lookup p = none := by
  induction d with
  | nil => simp [List.lookup]
  | cons f rest ih =>
    rcases f with ⟨k, v⟩
    by_cases hk : k = p
    · simp [List.filter_cons, hk, ih]
    · have hbeq : (k == p) = false := by simpa using hk
      have hbeq' : (p == k) = false := by simpa using (Ne.symm hk)
      cases hq : q (k, v) with
      | true => simp [List.filter_cons, hbeq, hq, List.lookup, hbeq', ih]
      | false => simp [List.filter_cons, hbeq, hq, ih]

theorem lookup_cons_ne (f : List Byte × Nat) (d : Disk) (p : List Byte)
    (h : p ≠ f.1) : ((f :: d).lookup p) = d.lookup p := by
  rcases f with ⟨k, v⟩
  have hbeq : (p == k) = false := by simpa using h
  simp [List.lookup, hbeq]

theorem lookup_cons_self (k : List Byte) (v : Nat) (d : Disk) :
    (((k, v) :: d).lookup k) = some v := by
  simp [List.lookup]

theorem append_ne_self (p x : List Byte) (hx : x ≠ []) : p ++ x ≠ p := by
  intro h
  have hlen := congrArg List.length h
  simp only [List.length_append] at hlen
  have : x.length = 0 := by omega
  exact hx (List.length_eq_zero.mp this)

theorem nameDash_ne_path (p day : List Byte) (i : Nat) : nameDash p day i ≠ p := by
  unfold nameDash
  rw [List.append_assoc]
  exact append_ne_self p _ (by simp)

theorem gz_nameDash_ne_path (p day : List Byte) (i : Nat) :
    gzName (nameDash p day i) ≠ p := by
  unfold gzName nameDash
  rw [List.append_assoc, List.append_assoc, ← List.append_assoc (46 :: day)]
  exact append_ne_self p _ (by simp)

theorem nameDot_not_prefix_path (p day : List Byte) :
    (nameDot p day).isPrefixOf p = false := by
  by_contra h
  have h' : (nameDot p day).isPrefixOf p = true := by
    cases hb : (nameDot p day).isPrefixOf p
    · exact absurd hb h
    · rfl
  have hle := (List.isPrefixOf_iff_prefix.mp h').length_le
  simp only [nameDot, List.length_append, List.length_cons] at hle
  omega

theorem nameDash_inj (p day : List Byte) (i j : Nat)
    (h : nameDash p day i = nameDash p day j) : i = j := by
  unfold nameDash at h
  rw [List.append_assoc, List.append_assoc] at h
  have h1 := List.append_cancel_left h
  have h2 := List.append_cancel_left h1
  have h3 : natDigits i = natDigits j := by
    injection h2
  exact natDigits_injective h3

theorem gzName_inj (a b : List Byte) (h : gzName a = gzName b) : a = b :=
  List.append_cancel_right h

/-- The name form whose existence `rotate_filename` actually checks: the
`.gz` form under compression, the name itself otherwise. -/
def checkedForm (compress : Bool) (n : List Byte) : List Byte :=
  if compress then gzName n else n

theorem checkFree_false_mem (d : Disk) (c : Bool) (n : List Byte)
    (h : checkFree d c n = false) :
    checkedForm c n ∈ d.map Prod.fst := by
  cases c with
  | false =>
    simp only [checkFree, Bool.false_and, Bool.not_false, Bool.true_and,
      Bool.false_or, Bool.not_eq_false'] at h
    exact (lookup_isSome_iff d n).mp (by simpa [is_file] using h)
  | true =>
    simp only [checkFree, Bool.true_and, Bool.not_true, Bool.false_and,
      Bool.or_false, Bool.not_eq_false'] at h
    exact (lookup_isSome_iff d (gzName n)).mp (by simpa [is_file] using h)

theorem checkFree_true_not_mem (d : Disk) (c : Bool) (n : List Byte)
    (h : checkFree d c n = true) :
    d.lookup (checkedForm c n) = none := by
  cases c with
  | false =>
    simp only [checkFree, Bool.false_and, Bool.not_false, Bool.true_and,
      Bool.false_or, Bool.not_eq_true'] at h
    have hcf : checkedForm false n = n := by simp [checkedForm]
    rw [hcf]
    cases hl : d.lookup n with
    | none => rfl
    | some v => simp [is_file, hl] at h
  | true =>
    simp only [checkFree, Bool.true_and, Bool.not_true, Bool.false_and,
      Bool.or_false, Bool.not_eq_true'] at h
    have hcf : checkedForm true n = gzName n := by simp [checkedForm]
    rw [hcf]
    cases hl : d.lookup (gzName n) with
    | none => rfl
    | some v => simp [is_file, hl] at h

theorem exists_free_nameDash (d : Disk) (p day : List Byte) (c : Bool) :
    ∃ j, 1 ≤ j ∧ j ≤ d.length + 1 ∧ checkFree d c (nameDash p day j) = true := by
  by_contra hcon
  push_neg at hcon
  have hmem : ∀ j ∈ Finset.Icc 1 (d.length + 1),
      checkedForm c (nameDash p day j) ∈ (d.map Prod.fst).toFinset := by
    intro j hj
    rcases Finset.mem_Icc.mp hj with ⟨h1, h2⟩
    have hf : checkFree d c (nameDash p day j) = false := by
      cases hcf : checkFree d c (nameDash p day j)
      · rfl
      · exact absurd hcf (hcon j h1 h2)
    exact List.mem_toFinset.mpr (checkFree_false_mem d c _ hf)
  have hinj : Set.InjOn (fun j => checkedForm c (nameDash p day j))
      (Finset.Icc 1 (d.length + 1)) := by
    intro a _ b _ hab
    cases c with
    | false => exact nameDash_inj p day a b (by simpa [checkedForm] using hab)
    | true =>
      exact nameDash_inj p day a b (gzName_inj _ _ (by simpa [checkedForm] using hab))
  have hcard := Finset.card_le_card_of_injOn _ hmem hinj
  rw [Nat.card_Icc] at hcard
  have hle := List.toFinset_card_le (d.map Prod.fst)
  simp only [List.length_map] at hle
  omega

theorem rotateFilenameAux_free (d : Disk) (p day : List Byte) (c : Bool) :
    ∀ fuel i n, rotateFilenameAux d p day c fuel i = some n →
      checkFree d c n = true := by
  intro fuel
  induction fuel with
  | zero => intro i n h; simp [rotateFilenameAux] at h
  | succ f ih =>
    intro i n h
    rw [rotateFilenameAux] at h
    by_cases hc : checkFree d c (nameDash p day i) = true
    · rw [if_pos hc] at h
      have he : nameDash p day i = n := by injection h
      rw [← he]
      exact hc
    · rw [if_neg hc] at h
      exact ih (i + 1) n h

theorem rotateFilenameAux_some_of_free (d : Disk) (p day : List Byte) (c : Bool) :
    ∀ fuel i j, i ≤ j → j < i + fuel → checkFree d c (nameDash p day j) = true →
      ∃ n, rotateFilenameAux d p day c fuel i = some n := by
  intro fuel
  induction fuel with
  | zero => intro i j h1 h2 _; omega
  | succ f ih =>
    intro i j h1 h2 hfree
    rw [rotateFilenameAux]
    by_cases hc : checkFree d c (nameDash p day i) = true
    · rw [if_pos hc]
      exact ⟨_, rfl⟩
    · rw [if_neg hc]
      have hne : i ≠ j := fun he => hc (he ▸ hfree)
      exact ih (i + 1) j (by omega) (by omega) hfree

theorem rotate_filename_mul_some (d : Disk) (p day : List Byte) (c : Bool) :
    ∃ n, rotate_filename d p day c true (d.length + 1) = some n := by
  obtain ⟨j, h1, h2, hfree⟩ := exists_free_nameDash d p day c
  unfold rotate_filename
  have hcond : (!true && checkFree d c (nameDot p day)) = false := by simp
  rw [hcond]
  simp only [Bool.false_eq_true, if_false]
  exact rotateFilenameAux_some_of_free d p day c (d.length + 1) 1 j h1 (by omega) hfree

theorem rotate_filename_free (d : Disk) (p day : List Byte) (c mul : Bool)
    (fuel : Nat) (n : List Byte) (h : rotate_filename d p day c mul fuel = some n) :
    checkFree d c n = true := by
  unfold rotate_filename at h
  by_cases hc : (!mul && checkFree d c (nameDot p day)) = true
  · rw [if_pos hc] at h
    have he : nameDot p day = n := by injection h
    rw [← he]
    have hc' : (!mul) = true ∧ checkFree d c (nameDot p day) = true := by
      simpa using hc
    exact hc'.2
  · rw [if_neg hc] at h
    exact rotateFilenameAux_free d p day c fuel 1 n h

/-! ## Behaviour of `get_file` -/

theorem get_file_succ (e : Errs) (today : Int) (fuel : Nat) (st : SizeSt)
    (d : Disk) (len : Nat) :
    get_file e today (fuel + 1) st d len =
      match openPhase e st d with
      | Except.error _ => some ⟨false, st, d, 0, []⟩
      | Except.ok (st1, d1) =>
        if st1.cur_size + len ≤ st1.size_limit then
          some ⟨true, { st1 with cur_size := st1.cur_size + len }, d1, 0, []⟩
        else
          match rotate_step e today st1 d1 with
          | RotRes.noName => none
          | RotRes.gzipErr st2 d2 => some ⟨false, st2, d2, 1, []⟩
          | RotRes.done st2 d3 removed _ =>
            match get_file e today fuel st2 d3 len with
            | none => none
            | some o =>
              some { o with rotations := o.rotations + 1, removed := removed ++ o.removed } := rfl

theorem rotateFilenameAux_shape (d : Disk) (p day : List Byte) (c : Bool) :
    ∀ fuel i n, rotateFilenameAux d p day c fuel i = some n →
      ∃ j, n = nameDash p day j := by
  intro fuel
  induction fuel with
  | zero => intro i n h; simp [rotateFilenameAux] at h
  | succ f ih =>
    intro i n h
    rw [rotateFilenameAux] at h
    by_cases hc : checkFree d c (nameDash p day i) = true
    · rw [if_pos hc] at h
      have he : nameDash p day i = n := by injection h
      exact ⟨i, he.symm⟩
    · rw [if_neg hc] at h
      exact ih (i + 1) n h

theorem rotate_filename_mul_shape (d : Disk) (p day : List Byte) (c : Bool)
    (fuel : Nat) (n : List Byte)
    (h : rotate_filename d p day c true fuel = some n) :
    ∃ j, n = nameDash p day j := by
  unfold rotate_filename at h
  have hcond : (!true && checkFree d c (nameDot p day)) = false := by simp
  rw [hcond] at h
  simp only [Bool.false_eq_true, if_false] at h
  exact rotateFilenameAux_shape d p day c fuel 1 n h

theorem remove_log_files_lookup_none (e : Errs) (d : Disk) (p day x : List Byte)
    (h : d.lookup x = none) : ((remove_log_files e d p day).1).lookup x = none := by
  unfold remove_log_files
  by_cases hd : e.delete_fails
  · rw [if_pos hd]
    exact h
  · rw [if_neg hd]
    exact lookup_filter_none d x _ h

theorem openPhase_ok (e : Errs) (st : SizeSt) (d : Disk)
    (ho : e.open_fails = false) :
    ∃ st1 d1, openPhase e st d = Except.ok (st1, d1) ∧ st1.path = st.path ∧
      st1.size_limit = st.size_limit ∧ st1.compress = st.compress ∧
      st1.keep_days = st.keep_days := by
  unfold openPhase open_file
  by_cases hf : st.file_open
  · rw [if_pos hf]
    exact ⟨st, d, rfl, rfl, rfl, rfl, rfl⟩
  · rw [if_neg hf, if_neg (by simp [ho])]
    cases hl : d.lookup st.path with
    | some sz => exact ⟨_, _, rfl, rfl, rfl, rfl, rfl⟩
    | none => exact ⟨_, _, rfl, rfl, rfl, rfl, rfl⟩

theorem rotate_step_spec (e : Errs) (today : Int) (st1 : SizeSt) (d1 : Disk)
    (hr : e.rename_fails = false) (hg : e.gzip_fails = false) :
    ∃ d3 removed renamed,
      rotate_step e today st1 d1 =
        RotRes.done { st1 with file_open := false } d3 removed renamed ∧
      d3.lookup st1.path = none := by
  obtain ⟨newName, hname⟩ :=
    rotate_filename_mul_some d1 st1.path (fmtDay today) st1.compress
  obtain ⟨j, hj⟩ :=
    rotate_filename_mul_shape d1 st1.path (fmtDay today) st1.compress _ newName hname
  have hpne : newName ≠ st1.path := hj ▸ nameDash_ne_path st1.path (fmtDay today) j
  have hgzne : gzName newName ≠ st1.path :=
    hj ▸ gz_nameDash_ne_path st1.path (fmtDay today) j
  cases hpl : d1.lookup st1.path with
  | none =>
    refine ⟨(remove_log_files e d1 st1.path
        (fmtDay (date_add today (-st1.keep_days)))).1,
      (remove_log_files e d1 st1.path
        (fmtDay (date_add today (-st1.keep_days)))).2, false, ?_,
      remove_log_files_lookup_none e d1 st1.path
        (fmtDay (date_add today (-st1.keep_days))) st1.path hpl⟩
    simp [rotate_step, hname, hr, fsRename, hpl]
  | some sz =>
    have hd2 : (((newName, sz) ::
        d1.filter (fun f => !(f.1 == st1.path) && !(f.1 == newName))) : Disk).lookup
        st1.path = none := by
      rw [lookup_cons_ne _ _ _ (Ne.symm hpne)]
      exact lookup_filter_key_removed d1 st1.path _
    cases hc : st1.compress with
    | false =>
      refine ⟨(remove_log_files e ((newName, sz) ::
          d1.filter (fun f => !(f.1 == st1.path) && !(f.1 == newName))) st1.path
          (fmtDay (date_add today (-st1.keep_days)))).1,
        (remove_log_files e ((newName, sz) ::
          d1.filter (fun f => !(f.1 == st1.path) && !(f.1 == newName))) st1.path
          (fmtDay (date_add today (-st1.keep_days)))).2, true, ?_,
        remove_log_files_lookup_none e _ st1.path
          (fmtDay (date_add today (-st1.keep_days))) st1.path hd2⟩
      rw [hc] at hname
      simp [rotate_step, hname, hr, fsRename, hpl, hc]
    | true =>
      have hd2' : (((gzName newName, sz) ::
          (((newName, sz) ::
            d1.filter (fun f => !(f.1 == st1.path) && !(f.1 == newName))).filter
            (fun f => !(f.1 == newName) && !(f.1 == gzName newName)))) : Disk).lookup
          st1.path = none := by
        rw [lookup_cons_ne _ _ _ (Ne.symm hgzne)]
        exact lookup_filter_none _ _ _ hd2
      refine ⟨(remove_log_files e ((gzName newName, sz) ::
          (((newName, sz) ::
            d1.filter (fun f => !(f.1 == st1.path) && !(f.1 == newName))).filter
            (fun f => !(f.1 == newName) && !(f.1 == gzName newName)))) st1.path
          (fmtDay (date_add today (-st1.keep_days)))).1,
        (remove_log_files e ((gzName newName, sz) ::
          (((newName, sz) ::
            d1.filter (fun f => !(f.1 == st1.path) && !(f.1 == newName))).filter
            (fun f => !(f.1 == newName) && !(f.1 == gzName newName)))) st1.path
          (fmtDay (date_add today (-st1.keep_days)))).2, true, ?_,
        remove_log_files_lookup_none e _ st1.path
          (fmtDay (date_add today (-st1.keep_days))) st1.path hd2'⟩
      rw [hc] at hname
      simp [rotate_step, hname, hr, fsRename, hpl, hc, gzip_encode, hg,
        lookup_cons_self]

theorem get_file_accepts (e : Errs) (today : Int) (st : SizeSt) (d : Disk)
    (len fuel : Nat) (ho : e.open_fails = false) (hr : e.rename_fails = false)
    (hg : e.gzip_fails = false) (hlen : len ≤ st.size_limit) :
    ∃ o, get_file e today (fuel + 2) st d len = some o ∧
      o.accepted = true ∧ o.rotations ≤ 1 := by
  obtain ⟨st1, d1, hopen, hp, hsl, hcp, hkd⟩ := openPhase_ok e st d ho
  have h2 : fuel + 2 = (fuel + 1) + 1 := rfl
  rw [h2, get_file_succ, hopen]
  dsimp only
  by_cases hacc : st1.cur_size + len ≤ st1.size_limit
  · rw [if_pos hacc]
    exact ⟨_, rfl, rfl, Nat.zero_le 1⟩
  · rw [if_neg hacc]
    obtain ⟨d3, removed, renamed, hstep, hlook⟩ :=
      rotate_step_spec e today st1 d1 hr hg
    rw [hstep]
    have hlook' : d3.lookup (({ st1 with file_open := false } : SizeSt).path) = none :=
      hlook
    have hop2 : openPhase e { st1 with file_open := false } d3 =
        Except.ok ({ st1 with file_open := true, cur_size := 0 },
          (st1.path, 0) :: d3) := by
      simp [openPhase, open_file, ho, hlook']
    have hacc2 : (0 : Nat) + len ≤ st1.size_limit := by omega
    have hrec : get_file e today (fuel + 1) { st1 with file_open := false } d3 len =
        some ⟨true, { st1 with file_open := true, cur_size := 0 + len },
          (st1.path, 0) :: d3, 0, []⟩ := by
      rw [get_file_succ, hop2]
      dsimp only
      rw [if_pos hacc2]
    dsimp only
    rw [hrec]
    exact ⟨_, rfl, rfl, Nat.le_refl 1⟩

theorem get_file_over_limit_none (e : Errs) (today : Int)
    (ho : e.open_fails = false) (hr : e.rename_fails = false)
    (hg : e.gzip_fails = false) :
    ∀ fuel st d len, st.size_limit < len →
      get_file e today fuel st d len = none := by
  intro fuel
  induction fuel with
  | zero => intro st d len _; rfl
  | succ f ih =>
    intro st d len hlt
    obtain ⟨st1, d1, hopen, hp, hsl, hcp, hkd⟩ := openPhase_ok e st d ho
    rw [get_file_succ, hopen]
    dsimp only
    have hno : ¬(st1.cur_size + len ≤ st1.size_limit) := by omega
    rw [if_neg hno]
    obtain ⟨d3, removed, renamed, hstep, _⟩ := rotate_step_spec e today st1 d1 hr hg
    rw [hstep]
    dsimp only
    have hlt' : ({ st1 with file_open := false } : SizeSt).size_limit < len := by
      simpa using (by omega : st1.size_limit < len)
    rw [ih { st1 with file_open := false } d3 len hlt']

theorem lookup_filter_pred_true (d : Disk) (p : List Byte)
    (q : List Byte × Nat → Bool) (hq : ∀ v, q (p, v) = true) :
    (d.filter q).lookup p = d.lookup p := by
  induction d with
  | nil => rfl
  | cons f rest ih =>
    rcases f with ⟨k, v⟩
    by_cases hk : p = k
    · subst hk
      simp [List.filter_cons, hq v, List.lookup]
    · have hbeq : (p == k) = false := by simpa using hk
      cases hqk : q (k, v) with
      | true => simp [List.filter_cons, hqk, List.lookup, hbeq, ih]
      | false => simp [List.filter_cons, hqk, ih, List.lookup, hbeq]

theorem remove_log_files_subset (e : Errs) (d : Disk) (p day x : List Byte)
    (hx : x ∈ ((remove_log_files e d p day).1).map Prod.fst) :
    x ∈ d.map Prod.fst := by
  unfold remove_log_files at hx
  by_cases hd : e.delete_fails
  · rw [if_pos hd] at hx
    exact hx
  · rw [if_neg hd] at hx
    simp only at hx
    obtain ⟨f, hf, rfl⟩ := List.mem_map.mp hx
    exact List.mem_map.mpr ⟨f, (List.mem_filter.mp hf).1, rfl⟩

theorem remove_log_files_lookup_path (e : Errs) (d : Disk) (p day : List Byte) :
    ((remove_log_files e d p day).1).lookup p = d.lookup p := by
  unfold remove_log_files
  by_cases hd : e.delete_fails
  · rw [if_pos hd]
  · rw [if_neg hd]
    exact lookup_filter_pred_true d p _
      (fun v => by simp [nameDot_not_prefix_path p day])

theorem rotate_step_rename_fail (e : Errs) (today : Int) (st1 : SizeSt)
    (d1 : Disk) (hr : e.rename_fails = true) :
    rotate_step e today st1 d1 =
      RotRes.done { st1 with file_open := false }
        (remove_log_files e d1 st1.path
          (fmtDay (date_add today (-st1.keep_days)))).1
        (remove_log_files e d1 st1.path
          (fmtDay (date_add today (-st1.keep_days)))).2 false := by
  obtain ⟨newName, hname⟩ :=
    rotate_filename_mul_some d1 st1.path (fmtDay today) st1.compress
  simp [rotate_step, hname, hr]

theorem get_file_rename_fail_stuck (e : Errs) (today : Int)
    (ho : e.open_fails = false) (hr : e.rename_fails = true) :
    ∀ fuel st d len s, d.lookup st.path = some s →
      st.size_limit < s + len →
      (st.file_open = true → st.size_limit < st.cur_size + len) →
      get_file e today fuel st d len = none := by
  intro fuel
  induction fuel with
  | zero => intro st d len s _ _ _; rfl
  | succ f ih =>
    intro st d len s hlook hs hcur
    cases hfo : st.file_open with
    | true =>
      have hop : openPhase e st d = Except.ok (st, d) := by
        simp [openPhase, hfo]
      rw [get_file_succ, hop]
      dsimp only
      have hno : ¬(st.cur_size + len ≤ st.size_limit) := by
        have := hcur hfo
        omega
      rw [if_neg hno, rotate_step_rename_fail e today st d hr]
      dsimp only
      have hlook3 : ((remove_log_files e d st.path
          (fmtDay (date_add today (-st.keep_days)))).1).lookup
          (({ st with file_open := false } : SizeSt).path) = some s := by
        rw [remove_log_files_lookup_path]
        exact hlook
      rw [ih { st with file_open := false }
        (remove_log_files e d st.path (fmtDay (date_add today (-st.keep_days)))).1
        len s hlook3 (by simpa using hs) (fun hcon => by simp at hcon)]
    | false =>
      have hop : openPhase e st d =
          Except.ok ({ st with file_open := true, cur_size := s }, d) := by
        simp [openPhase, open_file, ho, hfo, hlook]
      rw [get_file_succ, hop]
      dsimp only
      have hno : ¬(s + len ≤ st.size_limit) := by omega
      rw [if_neg hno,
        rotate_step_rename_fail e today { st with file_open := true, cur_size := s } d hr]
      dsimp only
      have hlook3 : ((remove_log_files e d st.path
          (fmtDay (date_add today (-st.keep_days)))).1).lookup
          (({ st with cur_size := s, file_open := false } : SizeSt).path) = some s := by
        rw [remove_log_files_lookup_path]
        exact hlook
      rw [ih { st with cur_size := s, file_open := false }
        (remove_log_files e d st.path (fmtDay (date_add today (-st.keep_days)))).1
        len s hlook3 (by simpa using hs) (fun hcon => by simp at hcon)]

/-! ## Claim theorems for the rotation engine -/

/-- C8 (counterexample): with `file_size = None`, `SizeRotate::new` sets the
size limit to `1024 * 1024 * 20` = 20 MiB = 20971520 bytes, not the claimed
16 MiB = 16777216 bytes. -/
theorem c8_default_limit_not_16MiB : sizeRotate_new_limit none ≠ 16777216 := by
  decide

/-- C8 amended: when no size threshold is configured (`file_size` is `None`),
the size-policy engine is constructed with a threshold of 20 MiB
(20971520 bytes); the 16 MiB figure is only the CLI default value that the
argument parser fills in, so `None` never reaches `SizeRotate::new` from the
command line. -/
theorem c8_default_limit_is_20MiB : sizeRotate_new_limit none = 20971520 := by
  decide

/-- C1 (code bug, evaluated at the failing input): with `keep_days = 0` the
retention sweep computes `expire_day = today` and therefore deletes today's
archival files. Concretely, on day 100 with live file `out` (3 bytes,
limit 4) a 2-byte write rotates `out` to `out.100-1` and the sweep then
immediately deletes that just-created archive, so the rotation event does
delete an archival file even though retention is supposed to be disabled. -/
theorem c1_keep_days_zero_sweep_deletes_todays_archive :
    (get_file noErr 100 2 ⟨strBytes "out", 4, 3, true, false, 0⟩
      [(strBytes "out", 3)] 2).map (fun o => (o.accepted, o.removed)) =
      some (true, [strBytes "out.100-1"]) := by decide

/-- C9: the retention sweep deletes only directory entries whose name starts
with `<base>.<expire_day>`; the live destination file, whose name is exactly
`<base>`, never matches that prefix and its directory entry is untouched by
the sweep. -/
theorem c9_retention_sweep_scope (e : Errs) (d : Disk)
    (p day x : List Byte) :
    (x ∈ (remove_log_files e d p day).2 → (nameDot p day).isPrefixOf x = true) ∧
    p ∉ (remove_log_files e d p day).2 ∧
    ((remove_log_files e d p day).1).lookup p = d.lookup p := by
  have h1 : ∀ y, y ∈ (remove_log_files e d p day).2 →
      (nameDot p day).isPrefixOf y = true := by
    intro y hy
    unfold remove_log_files at hy
    by_cases hd : e.delete_fails
    · rw [if_pos hd] at hy
      simp at hy
    · rw [if_neg hd] at hy
      simp only at hy
      exact (List.mem_filter.mp hy).2
  refine ⟨h1 x, ?_, remove_log_files_lookup_path e d p day⟩
  intro hp
  have hcontra := h1 p hp
  rw [nameDot_not_prefix_path] at hcontra
  exact Bool.false_ne_true hcontra

theorem c9_retention_sweep_scope_witness :
    (nameDot (strBytes "out") (strBytes "99")).isPrefixOf
      (strBytes "out.99-1") = true ∧
    strBytes "out" ∉
      (remove_log_files noErr [(strBytes "out.99-1", 1), (strBytes "out", 5)]
        (strBytes "out") (strBytes "99")).2 ∧
    ((remove_log_files noErr [(strBytes "out.99-1", 1), (strBytes "out", 5)]
        (strBytes "out") (strBytes "99")).1).lookup (strBytes "out") = some 5 :=
  ⟨(c9_retention_sweep_scope noErr
      [(strBytes "out.99-1", 1), (strBytes "out", 5)] (strBytes "out")
      (strBytes "99") (strBytes "out.99-1")).1 (by decide),
   (c9_retention_sweep_scope noErr
      [(strBytes "out.99-1", 1), (strBytes "out", 5)] (strBytes "out")
      (strBytes "99") (strBytes "out.99-1")).2.1,
   by
    rw [(c9_retention_sweep_scope noErr
      [(strBytes "out.99-1", 1), (strBytes "out", 5)] (strBytes "out")
      (strBytes "99") (strBytes "out.99-1")).2.2]
    decide⟩

/-- C7 (counterexample): when the rename fails during ROTATE, the retention
sweep is not skipped. On day 100 with `keep_days = 1` and an expired archive
`out.99-1` present, a rotation whose rename fails still deletes `out.99-1`,
while the claim says pruning is skipped for that cycle. -/
theorem c7_rename_failure_sweep_still_runs :
    (get_file ⟨false, true, false, false⟩ 100 2
      ⟨strBytes "out", 4, 3, true, false, 1⟩
      [(strBytes "out", 0), (strBytes "out.99-1", 7)] 2).map
      (fun o => (o.accepted, o.removed)) =
      some (true, [strBytes "out.99-1"]) := by decide

/-- C7 amended: if the rename fails during ROTATE, the failure is non-fatal
— the rotation completes with `renamed = false`, compression is skipped (the
directory gains no file: its names afterwards are a subset of the names
before), and the live path's entry is untouched so the retried `get_file`
reopens the original path — but the retention sweep still runs in that same
cycle (the step's removed list is exactly the sweep's result, not `[]`). -/
theorem c7_amended_rename_failure_behavior (e : Errs) (today : Int)
    (st1 : SizeSt) (d1 : Disk) (hr : e.rename_fails = true) :
    rotate_step e today st1 d1 =
      RotRes.done { st1 with file_open := false }
        (remove_log_files e d1 st1.path
          (fmtDay (date_add today (-st1.keep_days)))).1
        (remove_log_files e d1 st1.path
          (fmtDay (date_add today (-st1.keep_days)))).2 false ∧
    (∀ x ∈ ((remove_log_files e d1 st1.path
        (fmtDay (date_add today (-st1.keep_days)))).1).map Prod.fst,
      x ∈ d1.map Prod.fst) ∧
    ((remove_log_files e d1 st1.path
        (fmtDay (date_add today (-st1.keep_days)))).1).lookup st1.path =
      d1.lookup st1.path := by
  obtain ⟨newName, hname⟩ :=
    rotate_filename_mul_some d1 st1.path (fmtDay today) st1.compress
  refine ⟨?_, fun x hx => remove_log_files_subset e d1 st1.path _ x hx,
    remove_log_files_lookup_path e d1 st1.path _⟩
  simp [rotate_step, hname, hr]

theorem c7_amended_rename_failure_behavior_witness :
    rotate_step ⟨false, true, false, false⟩ 100
      ⟨strBytes "out", 4, 3, true, false, 1⟩
      [(strBytes "out", 0), (strBytes "out.99-1", 7)] =
      RotRes.done ⟨strBytes "out", 4, 3, false, false, 1⟩
        [(strBytes "out", 0)] [strBytes "out.99-1"] false :=
  ((c7_amended_rename_failure_behavior ⟨false, true, false, false⟩ 100
      ⟨strBytes "out", 4, 3, true, false, 1⟩
      [(strBytes "out", 0), (strBytes "out.99-1", 7)] rfl).1).trans (by decide)

/-- C6 (counterexample, two concrete inputs): first, the size policy always
requests `mul`, so its first rotation of the day on a fresh directory picks
`out.100-1`, not the claimed bare `out.100`. Second, with compression on
only the `.gz` form is checked: with a stale uncompressed archive
`out.100-1` present (and no `out.100-1.gz`), `rotate_filename` chooses
`out.100-1` even though that archival file exists — the rename target names
an existing archival file, which the rename then overwrites. -/
theorem c6_naming_and_overwrite_counterexample :
    (rotate_filename [] (strBytes "out") (strBytes "100") false true 1 =
      some (strBytes "out.100-1") ∧
     strBytes "out.100-1" ≠ strBytes "out.100") ∧
    (rotate_filename [(strBytes "out.100-1", 5)] (strBytes "out")
        (strBytes "100") true true 1 = some (strBytes "out.100-1") ∧
     is_file [(strBytes "out.100-1", 5)] (strBytes "out.100-1") = true) := by
  decide

/-- C6 amended: under the daily policy (`mul = false`) the day's first
rotation picks `<dest>.<day>` and, once that checked form exists, the next
picks `<dest>.<day>-1`; under the size policy (which always requests `mul`)
rotations pick `<dest>.<day>-1`, then `<dest>.<day>-2`, and so on. The
chosen target never names an existing file of the form the code checks: the
name itself when compression is off, its `.gz` form when compression is on
(an existing uncompressed file of the same name is not checked under
compression). -/
theorem c6_amended_rotation_naming (d : Disk) (p day : List Byte) (c : Bool)
    (fuel : Nat) :
    (∀ n mul, rotate_filename d p day c mul fuel = some n →
      (c = false → is_file d n = false) ∧
      (c = true → is_file d (gzName n) = false)) ∧
    (checkFree d c (nameDot p day) = true →
      rotate_filename d p day c false fuel = some (nameDot p day)) ∧
    (checkFree d c (nameDot p day) = false → 1 ≤ fuel →
      checkFree d c (nameDash p day 1) = true →
      rotate_filename d p day c false fuel = some (nameDash p day 1)) ∧
    (1 ≤ fuel → checkFree d c (nameDash p day 1) = true →
      rotate_filename d p day c true fuel = some (nameDash p day 1)) ∧
    (2 ≤ fuel → checkFree d c (nameDash p day 1) = false →
      checkFree d c (nameDash p day 2) = true →
      rotate_filename d p day c true fuel = some (nameDash p day 2)) := by
  refine ⟨?_, ?_, ?_, ?_, ?_⟩
  · intro n mul h
    have hfree := rotate_filename_free d p day c mul fuel n h
    constructor
    · intro hc
      subst hc
      have hl := checkFree_true_not_mem d false n hfree
      have hl' : d.lookup n = none := by simpa [checkedForm] using hl
      simp [is_file, hl']
    · intro hc
      subst hc
      have hl := checkFree_true_not_mem d true n hfree
      have hl' : d.lookup (gzName n) = none := by simpa [checkedForm] using hl
      simp [is_file, hl']
  · intro hfree
    unfold rotate_filename
    rw [if_pos (by simp [hfree])]
  · intro hbare hfuel hdash
    obtain ⟨f, rfl⟩ : ∃ f, fuel = f + 1 := ⟨fuel - 1, by omega⟩
    unfold rotate_filename
    rw [if_neg (by simp [hbare]), rotateFilenameAux, if_pos hdash]
  · intro hfuel hdash
    obtain ⟨f, rfl⟩ : ∃ f, fuel = f + 1 := ⟨fuel - 1, by omega⟩
    unfold rotate_filename
    rw [if_neg (by simp), rotateFilenameAux, if_pos hdash]
  · intro hfuel h1 h2
    obtain ⟨f, rfl⟩ : ∃ f, fuel = f + 2 := ⟨fuel - 2, by omega⟩
    have h22 : f + 2 = (f + 1) + 1 := rfl
    unfold rotate_filename
    rw [if_neg (by simp), h22, rotateFilenameAux, if_neg (by simp [h1])]
    have h2' : checkFree d c (nameDash p day (1 + 1)) = true := h2
    rw [rotateFilenameAux, if_pos h2']

theorem c6_amended_rotation_naming_witness :
    rotate_filename [] (strBytes "out") (strBytes "100") false false 1 =
      some (nameDot (strBytes "out") (strBytes "100")) ∧
    rotate_filename [(strBytes "out.100", 0)] (strBytes "out") (strBytes "100")
      false false 1 = some (nameDash (strBytes "out") (strBytes "100") 1) ∧
    rotate_filename [] (strBytes "out") (strBytes "100") false true 1 =
      some (nameDash (strBytes "out") (strBytes "100") 1) ∧
    rotate_filename [(strBytes "out.100-1", 0)] (strBytes "out")
      (strBytes "100") false true 2 =
      some (nameDash (strBytes "out") (strBytes "100") 2) ∧
    is_file [(strBytes "out.100", 0)]
      (nameDash (strBytes "out") (strBytes "100") 1) = false :=
  ⟨(c6_amended_rotation_naming [] (strBytes "out") (strBytes "100") false 1).2.1
      (by decide),
   (c6_amended_rotation_naming [(strBytes "out.100", 0)] (strBytes "out")
      (strBytes "100") false 1).2.2.1 (by decide) (by decide) (by decide),
   (c6_amended_rotation_naming [] (strBytes "out") (strBytes "100") false
      1).2.2.2.1 (by decide) (by decide),
   (c6_amended_rotation_naming [(strBytes "out.100-1", 0)] (strBytes "out")
      (strBytes "100") false 2).2.2.2.2 (by decide) (by decide) (by decide),
   ((c6_amended_rotation_naming [(strBytes "out.100", 0)] (strBytes "out")
      (strBytes "100") false 1).1
      (nameDash (strBytes "out") (strBytes "100") 1) false (by decide)).1 rfl⟩

/-- C3 (counterexample): a recoverable open failure during steady state
drops the in-flight line: with the live file closed and the open failing,
`write_all` only logs the error and returns, so the line `"ab\n"` reaches no
file — contradicting the claim that the line being written is never dropped. -/
theorem c3_open_failure_drops_line :
    (write_all ⟨true, false, false, false⟩ 100 2
      ⟨strBytes "out", 4, 0, false, false, 1⟩ [] [97, 98, 10] []).2.2 = [] := by
  decide

/-- C3 amended: the pipeline never crashes on a recoverable I/O failure —
`write_all` catches every `get_file` error and the receive loop continues —
and delete failures (like flush failures, which are only logged) leave the
line written; but an open failure (and a compression failure, which
`get_file` propagates with `?`) makes `get_file` return an error and the
in-flight line is dropped after logging. A rename failure skips compression
and falls back to reopening the original file: the line is written there
when the live file has room for it, but when that file is still over the
threshold the retry rotates again, the rename fails again, and `get_file`
recurses without bound — the line is then never written. -/
theorem c3_amended_recoverable_failures (e : Errs) (today : Int) (st : SizeSt)
    (d : Disk) (data : List Byte) (written : List (List Byte)) :
    (e.open_fails = true → st.file_open = false →
      write_all e today 2 st d data written = (st, d, written)) ∧
    (e.open_fails = false → e.rename_fails = false → e.gzip_fails = false →
      data.length ≤ st.size_limit →
      (write_all e today 2 st d data written).2.2 = written ++ [data]) ∧
    (∀ s, e.open_fails = false → e.rename_fails = true → st.file_open = true →
      st.size_limit < st.cur_size + data.length →
      d.lookup st.path = some s → s + data.length ≤ st.size_limit →
      (write_all e today 2 st d data written).2.2 = written ++ [data]) ∧
    (∀ s fuel, e.open_fails = false → e.rename_fails = true →
      d.lookup st.path = some s → st.size_limit < s + data.length →
      (st.file_open = true → st.size_limit < st.cur_size + data.length) →
      get_file e today fuel st d data.length = none ∧
      write_all e today fuel st d data written = (st, d, written)) := by
  refine ⟨?_, ?_, ?_, ?_⟩
  · intro hopen hfo
    have hgf : get_file e today 2 st d data.length =
        some ⟨false, st, d, 0, []⟩ := by
      have h2 : (2 : Nat) = 1 + 1 := rfl
      rw [h2, get_file_succ]
      have hop : openPhase e st d = Except.error () := by
        simp [openPhase, open_file, hopen, hfo]
      rw [hop]
    simp [write_all, hgf]
  · intro ho hr hg hlen
    obtain ⟨o, hsome, hacc, _⟩ :=
      get_file_accepts e today st d data.length 0 ho hr hg hlen
    have hsome' : get_file e today 2 st d data.length = some o := hsome
    simp [write_all, hsome', hacc]
  · intro s ho hrn hfo hover hlook hroom
    have hop : openPhase e st d = Except.ok (st, d) := by
      simp [openPhase, hfo]
    have hno : ¬(st.cur_size + data.length ≤ st.size_limit) := by omega
    have hlook3 : ((remove_log_files e d st.path
        (fmtDay (date_add today (-st.keep_days)))).1).lookup
        (({ st with file_open := false } : SizeSt).path) = some s := by
      rw [remove_log_files_lookup_path]
      exact hlook
    have hop2 : openPhase e { st with file_open := false }
        (remove_log_files e d st.path
          (fmtDay (date_add today (-st.keep_days)))).1 =
        Except.ok ({ st with file_open := true, cur_size := s },
          (remove_log_files e d st.path
            (fmtDay (date_add today (-st.keep_days)))).1) := by
      simp [openPhase, open_file, ho, hlook3]
    have hrec : get_file e today 1 { st with file_open := false }
        (remove_log_files e d st.path
          (fmtDay (date_add today (-st.keep_days)))).1 data.length =
        some ⟨true, { st with file_open := true, cur_size := s + data.length },
          (remove_log_files e d st.path
            (fmtDay (date_add today (-st.keep_days)))).1, 0, []⟩ := by
      have h1 : (1 : Nat) = 0 + 1 := rfl
      rw [h1, get_file_succ, hop2]
      dsimp only
      rw [if_pos hroom]
    have hgf : get_file e today 2 st d data.length =
        some ⟨true, { st with file_open := true, cur_size := s + data.length },
          (remove_log_files e d st.path
            (fmtDay (date_add today (-st.keep_days)))).1, 1,
          (remove_log_files e d st.path
            (fmtDay (date_add today (-st.keep_days)))).2 ++ []⟩ := by
      have h2 : (2 : Nat) = 1 + 1 := rfl
      rw [h2, get_file_succ, hop]
      dsimp only
      rw [if_neg hno, rotate_step_rename_fail e today st d hrn]
      dsimp only
      rw [hrec]
    simp [write_all, hgf]
  · intro s fuel ho hrn hlook hs hcur
    have hnone := get_file_rename_fail_stuck e today ho hrn fuel st d
      data.length s hlook hs hcur
    refine ⟨hnone, ?_⟩
    unfold write_all
    rw [hnone]

theorem c3_amended_recoverable_failures_witness :
    write_all ⟨true, false, false, false⟩ 100 2
      ⟨strBytes "out", 4, 0, false, false, 1⟩ [] [97, 98, 10] [] =
      (⟨strBytes "out", 4, 0, false, false, 1⟩, [], []) ∧
    (write_all ⟨false, false, false, true⟩ 100 2
      ⟨strBytes "out", 4, 3, true, false, 1⟩
      [(strBytes "out", 3), (strBytes "out.99-1", 7)] [97, 10] []).2.2 =
      [] ++ [[97, 10]] ∧
    (write_all ⟨false, true, false, false⟩ 100 2
      ⟨strBytes "out", 4, 3, true, false, 1⟩
      [(strBytes "out", 0), (strBytes "out.99-1", 7)] [97, 10] []).2.2 =
      [] ++ [[97, 10]] ∧
    (get_file ⟨false, true, false, false⟩ 100 5
      ⟨strBytes "out", 4, 4, true, false, 1⟩ [(strBytes "out", 4)] 2 = none ∧
    write_all ⟨false, true, false, false⟩ 100 5
      ⟨strBytes "out", 4, 4, true, false, 1⟩ [(strBytes "out", 4)] [97, 10] [] =
      (⟨strBytes "out", 4, 4, true, false, 1⟩, [(strBytes "out", 4)], [])) :=
  ⟨(c3_amended_recoverable_failures ⟨true, false, false, false⟩ 100
      ⟨strBytes "out", 4, 0, false, false, 1⟩ [] [97, 98, 10] []).1 rfl rfl,
   (c3_amended_recoverable_failures ⟨false, false, false, true⟩ 100
      ⟨strBytes "out", 4, 3, true, false, 1⟩
      [(strBytes "out", 3), (strBytes "out.99-1", 7)] [97, 10] []).2.1 rfl rfl
      rfl (by decide),
   (c3_amended_recoverable_failures ⟨false, true, false, false⟩ 100
      ⟨strBytes "out", 4, 3, true, false, 1⟩
      [(strBytes "out", 0), (strBytes "out.99-1", 7)] [97, 10] []).2.2.1 0 rfl
      rfl rfl (by decide) (by decide) (by decide),
   (c3_amended_recoverable_failures ⟨false, true, false, false⟩ 100
      ⟨strBytes "out", 4, 4, true, false, 1⟩ [(strBytes "out", 4)] [97, 10]
      []).2.2.2 4 5 rfl rfl (by decide) (by decide) (fun _ => by decide)⟩

/-- C4 (counterexample): a request longer than the size limit is never
accepted: on a fresh engine with limit 4, `get_file(5)` rotates the (empty)
live file away and retries, and after 10 recursion steps — room for far more
than one rotation — it still has not returned a handle, falsifying "the
retried request is then accepted, returning a file handle after at most one
rotation (in particular also when len exceeds the configured threshold)". -/
theorem c4_oversized_request_never_accepted :
    get_file noErr 100 10 ⟨strBytes "out", 4, 0, false, false, 30⟩ [] 5 =
      none := by decide

/-- C4 amended: with no I/O failures, `get_file(len)` with `len` within the
size limit returns an accepted handle after at most one rotation (any fuel
margin of 2 suffices); but when `len` exceeds the limit, the retry is never
accepted — the self-recursion never returns, modelled as `none` for every
fuel. -/
theorem c4_amended_get_file_termination (e : Errs) (today : Int)
    (ho : e.open_fails = false) (hr : e.rename_fails = false)
    (hg : e.gzip_fails = false) :
    (∀ st d (len fuel : Nat), len ≤ st.size_limit →
      ∃ o, get_file e today (fuel + 2) st d len = some o ∧
        o.accepted = true ∧ o.rotations ≤ 1) ∧
    (∀ (fuel : Nat) st d (len : Nat), st.size_limit < len →
      get_file e today fuel st d len = none) :=
  ⟨fun st d len fuel hlen => get_file_accepts e today st d len fuel ho hr hg hlen,
   fun fuel st d len hlt =>
    get_file_over_limit_none e today ho hr hg fuel st d len hlt⟩

theorem c4_amended_get_file_termination_witness :
    (∃ o, get_file noErr 100 (0 + 2) ⟨strBytes "out", 4, 3, true, false, 30⟩
        [(strBytes "out", 3)] 2 = some o ∧ o.accepted = true ∧
        o.rotations ≤ 1) ∧
    get_file noErr 100 7 ⟨strBytes "out", 4, 0, false, false, 30⟩ [] 9 =
      none :=
  ⟨(c4_amended_get_file_termination noErr 100 rfl rfl rfl).1
      ⟨strBytes "out", 4, 3, true, false, 30⟩ [(strBytes "out", 3)] 2 0
      (by decide),
   (c4_amended_get_file_termination noErr 100 rfl rfl rfl).2 7
      ⟨strBytes "out", 4, 0, false, false, 30⟩ [] 9 (by decide)⟩
